import Mathlib

/-!
Verification of `simple_thread_pool.cpp`: a fixed-size thread pool with a
shared FIFO task queue (`std::queue<std::string> tasks_`), a shutdown flag
(`bool stop_`), both guarded by `queue_mutex_` with condition variable `cv_`,
and a separate `cout_mutex` guarding console output.

The pool is embedded as a labelled small-step interleaving semantics.
Every critical section of the C++ code (a region executed while holding a
mutex) becomes one atomic transition:

* `Enqueue` (lines 38-44): push to the back of `tasks_` under `queue_mutex_`.
* the worker wait/dequeue block (lines 52-59): under `queue_mutex_`,
  `cv_.wait(lock, [this]{ return stop_ || !tasks_.empty(); })`, then
  either return (when `stop_ && tasks_.empty()`) or pop the front task.
* the worker print block (lines 62-65): under `cout_mutex`, write
  `"Thread " << id << ": " << task << std::endl` to `std::cout`.
* the destructor's flag store (lines 30-33): set `stop_ = true` under
  `queue_mutex_`.

Ghost fields (`enqueued`, `dequeued`, `output`) record the histories needed
to state the specification; `outChars` is the raw character stream of
`std::cout`, to which each print appends its whole line atomically (the
atomicity is what `cout_mutex` provides in the source).  The run relation
`Steps` admits submissions only while `stop_` is false: the specification
declares submission after teardown begins a usage error, so well-formed
runs enqueue only before the destructor's flag store.
-/

namespace SimplePool

/-- Control state of one worker thread inside `SimpleThreadPool::Worker`:
blocked on `cv_.wait` (or about to re-check its predicate), holding a
dequeued task it is about to print, or returned from `Worker()`. -/
inductive WStatus where
  | waiting
  | running (task : String)
  | terminated
deriving DecidableEq, Repr

/-- One line written to `std::cout`: the printing worker's identifier and
the task payload. -/
structure OutLine where
  wid : Nat
  payload : String
deriving DecidableEq, Repr

/-- The worker identifier printed by the source:
`"Thread " << std::this_thread::get_id()`; thread ids are modelled by the
worker's index in `workers_`. -/
def workerIdent (i : Nat) : String := "Thread " ++ toString i

/-- The text of one output line (without the terminating newline added by
`std::endl`): `"Thread " << id << ": " << task`. -/
def renderLine (l : OutLine) : String := workerIdent l.wid ++ ": " ++ l.payload

/-- The state of a `SimpleThreadPool` object together with the ghost
histories of its run. `tasks` is `tasks_` with the queue front at the list
head; `stop` is `stop_`; `workers` is the control state of each thread in
`workers_`. -/
structure PoolState where
  tasks : List String
  stop : Bool
  workers : List WStatus
  enqueued : List String
  dequeued : List String
  output : List OutLine
  outChars : List Char
deriving DecidableEq, Repr

/-- `SimpleThreadPool::Enqueue` (lines 38-44): under `queue_mutex_`, push
`msg` to the back of `tasks_`, then `cv_.notify_one()`.  The C++ member
returns `void`; in the state-passing embedding it returns the updated
state.  It is a total function: no path in its body waits on `cv_`. -/
def Enqueue (s : PoolState) (msg : String) : PoolState :=
  { s with tasks := s.tasks ++ [msg], enqueued := s.enqueued ++ [msg] }

/-- Transition labels: a submission, the destructor's flag store, and the
three worker events (dequeue of a task, exit of the worker loop, printing
of a task). -/
inductive Label where
  | enq (msg : String)
  | halt
  | deq (i : Nat) (t : String)
  | term (i : Nat)
  | print (i : Nat) (t : String)
deriving DecidableEq, Repr

/-- Labelled small-step transition relation of the pool.  Each constructor
is one critical section of the source, executed atomically because the
corresponding mutex is held throughout:

* `enq`: a caller runs `Enqueue` (guarded by `stop = false`: the spec rules
  out submission after teardown begins);
* `halt`: the destructor stores `stop_ = true` under `queue_mutex_` and
  calls `cv_.notify_all()`;
* `deq`: a worker whose `cv_.wait` predicate `stop_ || !tasks_.empty()`
  holds because the queue is non-empty pops the front task (lines 57-59);
* `term`: a worker whose predicate holds with `stop_ && tasks_.empty()`
  returns from `Worker()` (line 56);
* `print`: a worker holding task `t` writes its line under `cout_mutex`
  and loops back to the wait (lines 62-65; the 100ms sleep is a no-op for
  state). -/
inductive Step : PoolState → Label → PoolState → Prop where
  | enq (s : PoolState) (msg : String) (hstop : s.stop = false) :
      Step s (.enq msg) (Enqueue s msg)
  | halt (s : PoolState) :
      Step s .halt { s with stop := true }
  | deq (s : PoolState) (i : Nat) (t : String) (rest : List String)
      (hw : s.workers[i]? = some .waiting)
      (ht : s.tasks = t :: rest) :
      Step s (.deq i t)
        { s with tasks := rest,
                 workers := s.workers.set i (.running t),
                 dequeued := s.dequeued ++ [t] }
  | term (s : PoolState) (i : Nat)
      (hw : s.workers[i]? = some .waiting)
      (hstop : s.stop = true) (ht : s.tasks = []) :
      Step s (.term i) { s with workers := s.workers.set i .terminated }
  | print (s : PoolState) (i : Nat) (t : String)
      (hw : s.workers[i]? = some (.running t)) :
      Step s (.print i t)
        { s with workers := s.workers.set i .waiting,
                 output := s.output ++ [⟨i, t⟩],
                 outChars := s.outChars ++ (renderLine ⟨i, t⟩).data ++ ['\n'] }

/-- A finite run: `Steps s tr s'` holds when the pool moves from `s` to
`s'` through the labelled transitions listed (in order) in `tr`. -/
inductive Steps : PoolState → List Label → PoolState → Prop where
  | refl (s : PoolState) : Steps s [] s
  | head {s s' s'' : PoolState} {l : Label} {tr : List Label} :
      Step s l s' → Steps s' tr s'' → Steps s (l :: tr) s''

/-- State right after `SimpleThreadPool(n)` returns: empty queue, flag
false, `n` worker threads each blocked on the empty queue, no history. -/
def initState (n : Nat) : PoolState :=
  { tasks := [], stop := false, workers := List.replicate n .waiting,
    enqueued := [], dequeued := [], output := [], outChars := [] }

/-- A state reachable by some run of a pool constructed with `n` workers. -/
def Reachable (n : Nat) (s : PoolState) : Prop :=
  ∃ tr, Steps (initState n) tr s

/-- Every worker thread has returned from `Worker()`; this is exactly the
condition under which the destructor's `t.join()` loop returns. -/
def allTerminated (s : PoolState) : Prop :=
  ∀ w ∈ s.workers, w = WStatus.terminated

instance (s : PoolState) : Decidable (allTerminated s) := by
  unfold allTerminated
  infer_instance

/-- The payload a worker currently holds, if it is running one. -/
def taskOf : WStatus → Option String
  | .running t => some t
  | _ => none

/-- Payloads currently held by running workers (dequeued, not yet printed). -/
def runningPayloads (s : PoolState) : List String :=
  s.workers.filterMap taskOf

/-- The payloads of the lines printed so far, in print order. -/
def outputPayloads (s : PoolState) : List String :=
  s.output.map OutLine.payload

/-- The character stream obtained by writing the given lines one after the
other, each line whole and followed by the newline of `std::endl`. -/
def flatRender (ls : List OutLine) : List Char :=
  (ls.map fun l => (renderLine l).data ++ ['\n']).flatten

/-- The payloads submitted by the `enq` transitions of a trace, in order. -/
def enqLabels (tr : List Label) : List String :=
  tr.filterMap fun l =>
    match l with
    | .enq msg => some msg
    | _ => none

/-- The print events of a trace, in order. -/
def printEvents (tr : List Label) : List OutLine :=
  tr.filterMap fun l =>
    match l with
    | .print i t => some ⟨i, t⟩
    | _ => none

/-- A wait/dequeue event of worker `i`: the two possible ways worker `i`
leaves `take_or_wait` (the `cv_.wait` block of lines 52-59). -/
def WaitEvent (i : Nat) (l : Label) : Prop :=
  (∃ t, l = Label.deq i t) ∨ l = Label.term i

/-- Invariant of every state reachable by a run of a pool with `n` workers:
the worker vector keeps its size; the enqueue history is the dequeue
history followed by the current queue (FIFO); the dequeue history is, up to
the order in which concurrent prints complete, the printed payloads
followed by the payloads held by running workers; the raw `std::cout`
character stream is the concatenation of whole rendered lines; every
printed line is attributed to an existing worker; a worker only exits once
`stop_` is set; and once every worker (of a non-empty pool) has exited the
queue is empty. -/
structure Inv (n : Nat) (s : PoolState) : Prop where
  wlen : s.workers.length = n
  hist : s.enqueued = s.dequeued ++ s.tasks
  flight : s.dequeued.Perm (outputPayloads s ++ runningPayloads s)
  chars : s.outChars = flatRender s.output
  wid_lt : ∀ l ∈ s.output, l.wid < n
  term_stop : ∀ w ∈ s.workers, w = WStatus.terminated → s.stop = true
  drained : s.workers ≠ [] → allTerminated s → s.tasks = []

/-- When the pool has exactly one worker the dequeue history is the print
history followed by the (at most one) payload in flight: with a single
consumer, print order coincides with dequeue order. -/
def swInv (s : PoolState) : Prop :=
  s.workers.length = 1 → s.dequeued = outputPayloads s ++ runningPayloads s

/-- Rank of a worker in the termination measure. -/
def wrank : WStatus → Nat
  | WStatus.waiting => 1
  | WStatus.running _ => 2
  | WStatus.terminated => 0

/-- Termination measure: once `stop_` is set every worker transition
strictly decreases it. -/
def energy (s : PoolState) : Nat :=
  2 * s.tasks.length + (s.workers.map wrank).sum

/-! ### A concrete run used to witness the theorems

One pool with a single worker: submit `"Message 1"`, tear down, then let
the worker drain the task, print it and exit. -/

def msg1 : String := "Message 1"

def rA0 : PoolState := initState 1

def rA1 : PoolState := Enqueue rA0 msg1

def rA2 : PoolState := { rA1 with stop := true }

def rA3 : PoolState :=
  { rA2 with tasks := [],
             workers := rA2.workers.set 0 (WStatus.running msg1),
             dequeued := rA2.dequeued ++ [msg1] }

def rA4 : PoolState :=
  { rA3 with workers := rA3.workers.set 0 WStatus.waiting,
             output := rA3.output ++ [⟨0, msg1⟩],
             outChars := rA3.outChars ++ (renderLine ⟨0, msg1⟩).data ++ ['\n'] }

def rA5 : PoolState := { rA4 with workers := rA4.workers.set 0 WStatus.terminated }

def trA : List Label :=
  [Label.enq msg1, Label.halt, Label.deq 0 msg1, Label.print 0 msg1,
    Label.term 0]

/-! ### List helper lemmas -/

theorem getElem?_split {α : Type} :
    ∀ (l : List α) (i : Nat) (a : α), l[i]? = some a →
      l = l.take i ++ a :: l.drop (i + 1)
  | [], i, a, h => by simp at h
  | x :: xs, 0, a, h => by
      simp at h
      simp [h]
  | x :: xs, i + 1, a, h => by
      simp at h
      have ih := getElem?_split xs i a h
      simpa using ih

theorem lt_length_of_getElem? {α : Type} {l : List α} {i : Nat} {a : α}
    (h : l[i]? = some a) : i < l.length := by
  by_contra hge
  rw [List.getElem?_eq_none (by omega)] at h
  exact Option.noConfusion h

theorem set_split {α : Type} {l : List α} {i : Nat} {a : α}
    (h : l[i]? = some a) (b : α) :
    l.set i b = l.take i ++ b :: l.drop (i + 1) := by
  have hlt := lt_length_of_getElem? h
  rw [List.set_eq_take_append_cons_drop, if_pos hlt]

theorem filterMap_toList {α β : Type} (f : α → Option β) (a : α) (l : List α) :
    (a :: l).filterMap f = (f a).toList ++ l.filterMap f := by
  cases h : f a <;> simp [List.filterMap_cons, h]

/-! ### Generic facts about runs -/

namespace Steps

theorem append {s s' s'' : PoolState} {tr tr' : List Label}
    (h : Steps s tr s') (h' : Steps s' tr' s'') : Steps s (tr ++ tr') s'' := by
  induction h with
  | refl _ => exact h'
  | head hstep _ ih => exact Steps.head hstep (ih h')

end Steps

theorem Step.stop_stays_true {s s' : PoolState} {l : Label}
    (h : Step s l s') (hs : s.stop = true) : s'.stop = true := by
  cases h <;> simp_all [Enqueue]

theorem Steps.stop_mono {s s' : PoolState} {tr : List Label}
    (h : Steps s tr s') (hs : s.stop = true) : s'.stop = true := by
  induction h with
  | refl _ => exact hs
  | head hstep _ ih => exact ih (hstep.stop_stays_true hs)

theorem Step.enq_requires_not_stop {s s' : PoolState} {msg : String}
    (h : Step s (.enq msg) s') : s.stop = false := by
  cases h with
  | enq _ hstop => exact hstop

/-- Once the destructor has stored `stop_ = true`, no further submission
occurs in a well-formed run. -/
theorem Steps.no_enq_of_stop {s s' : PoolState} {tr : List Label}
    (h : Steps s tr s') (hs : s.stop = true) :
    ∀ msg, Label.enq msg ∉ tr := by
  induction h with
  | refl _ => intro msg hmem; exact absurd hmem (List.not_mem_nil _)
  | head hstep _ ih =>
      intro msg hmem
      rcases List.mem_cons.mp hmem with heq | hmem'
      · subst heq
        rw [hstep.enq_requires_not_stop] at hs
        exact Bool.noConfusion hs
      · exact ih (hstep.stop_stays_true hs) msg hmem'

theorem Step.enqueued_extend {s s' : PoolState} {l : Label} (h : Step s l s') :
    s'.enqueued = s.enqueued ++ enqLabels [l] := by
  cases h <;> simp [Enqueue, enqLabels, List.filterMap_cons]

theorem Steps.enqueued_eq {s s' : PoolState} {tr : List Label}
    (h : Steps s tr s') : s'.enqueued = s.enqueued ++ enqLabels tr := by
  induction h with
  | refl _ => simp [enqLabels]
  | head hstep _ ih =>
      rw [ih, hstep.enqueued_extend]
      cases hstep <;> simp [enqLabels, List.filterMap_cons, Enqueue]

theorem Step.output_extend {s s' : PoolState} {l : Label} (h : Step s l s') :
    s'.output = s.output ++ printEvents [l] := by
  cases h <;> simp [Enqueue, printEvents, List.filterMap_cons]

theorem Steps.output_eq {s s' : PoolState} {tr : List Label}
    (h : Steps s tr s') : s'.output = s.output ++ printEvents tr := by
  induction h with
  | refl _ => simp [printEvents]
  | head hstep _ ih =>
      rw [ih, hstep.output_extend]
      cases hstep <;> simp [printEvents, List.filterMap_cons, Enqueue]

theorem Step.workers_length {s s' : PoolState} {l : Label} (h : Step s l s') :
    s'.workers.length = s.workers.length := by
  cases h <;> simp [Enqueue]

theorem filterMap_split {α β : Type} (f : α → Option β) {l : List α} {i : Nat}
    {a : α} (h : l[i]? = some a) :
    l.filterMap f
      = (l.take i).filterMap f ++ (f a).toList ++ (l.drop (i + 1)).filterMap f := by
  conv_lhs => rw [getElem?_split l i a h]
  rw [List.filterMap_append, filterMap_toList]
  simp [List.append_assoc]

theorem filterMap_set {α β : Type} (f : α → Option β) {l : List α} {i : Nat}
    {a : α} (h : l[i]? = some a) (b : α) :
    (l.set i b).filterMap f
      = (l.take i).filterMap f ++ (f b).toList ++ (l.drop (i + 1)).filterMap f := by
  rw [set_split h b, List.filterMap_append, filterMap_toList]
  simp [List.append_assoc]

theorem sum_map_set {α : Type} (f : α → Nat) {l : List α} {i : Nat} {a : α}
    (h : l[i]? = some a) (b : α) :
    ((l.set i b).map f).sum + f a = (l.map f).sum + f b := by
  conv_rhs => rw [getElem?_split l i a h]
  rw [set_split h b]
  simp [List.sum_append]
  omega

theorem mem_set_self {α : Type} {l : List α} {i : Nat} {a : α}
    (h : l[i]? = some a) (b : α) : b ∈ l.set i b := by
  rw [set_split h b]
  simp

/-! ### The reachability invariant -/

theorem Inv.init (n : Nat) : Inv n (initState n) := by
  refine ⟨?_, ?_, ?_, ?_, ?_, ?_, ?_⟩
  · simp [initState]
  · simp [initState]
  · simp [initState, outputPayloads, runningPayloads, List.filterMap_replicate,
      taskOf]
  · simp [initState, flatRender]
  · simp [initState]
  · intro w hw hterm
    simp [initState] at hw
    rw [hw.2] at hterm
    exact absurd hterm (by simp)
  · intro hne hterm
    exfalso
    obtain ⟨w, hw⟩ := List.exists_mem_of_ne_nil _ hne
    have h1 := hterm w hw
    simp [initState] at hw
    rw [hw.2] at h1
    exact WStatus.noConfusion h1

theorem Inv.step {n : Nat} {s s' : PoolState} {l : Label}
    (h : Step s l s') (inv : Inv n s) : Inv n s' := by
  cases h with
  | enq msg hstop =>
      refine ⟨?_, ?_, ?_, ?_, ?_, ?_, ?_⟩
      · simpa [Enqueue] using inv.wlen
      · simp [Enqueue, inv.hist]
      · simpa [Enqueue, outputPayloads, runningPayloads] using inv.flight
      · simpa [Enqueue] using inv.chars
      · simpa [Enqueue] using inv.wid_lt
      · intro w hw hterm
        simp only [Enqueue] at hw
        exact inv.term_stop w hw hterm
      · intro hne hterm
        exfalso
        simp only [Enqueue] at hne
        obtain ⟨w, hw⟩ := List.exists_mem_of_ne_nil _ hne
        have hstop' := inv.term_stop w hw (hterm w hw)
        rw [hstop] at hstop'
        exact Bool.noConfusion hstop'
  | halt =>
      refine ⟨inv.wlen, inv.hist, inv.flight, inv.chars, inv.wid_lt, ?_, ?_⟩
      · intro w _ _
        rfl
      · intro hne hterm
        exact inv.drained hne hterm
  | deq i t rest hw ht =>
      have hfm := filterMap_split taskOf hw
      have hfm' := filterMap_set taskOf hw (WStatus.running t)
      simp only [taskOf, Option.toList_none, Option.toList_some,
        List.append_nil, List.nil_append] at hfm hfm'
      refine ⟨?_, ?_, ?_, ?_, ?_, ?_, ?_⟩
      · simpa using inv.wlen
      · have := inv.hist
        rw [ht] at this
        simpa [List.append_assoc] using this
      · show (s.dequeued ++ [t]).Perm
          (outputPayloads s ++ (s.workers.set i (WStatus.running t)).filterMap taskOf)
        have base := inv.flight
        rw [runningPayloads, hfm] at base
        rw [hfm']
        rw [List.perm_iff_count] at base ⊢
        intro a
        have hb := base a
        simp [List.count_append, List.count_cons] at hb ⊢
        omega
      · simpa using inv.chars
      · simpa using inv.wid_lt
      · intro w hmem hterm
        show s.stop = true
        rcases List.mem_or_eq_of_mem_set hmem with hmem' | heq
        · exact inv.term_stop w hmem' hterm
        · rw [heq] at hterm
          exact WStatus.noConfusion hterm
      · intro _ hterm
        exfalso
        have hmemr : WStatus.running t ∈ s.workers.set i (WStatus.running t) :=
          mem_set_self hw _
        have := hterm _ hmemr
        exact WStatus.noConfusion this
  | term i hw hstop ht =>
      have hfm := filterMap_split taskOf hw
      have hfm' := filterMap_set taskOf hw WStatus.terminated
      simp only [taskOf, Option.toList_none, List.append_nil] at hfm hfm'
      refine ⟨?_, ?_, ?_, ?_, ?_, ?_, ?_⟩
      · simpa using inv.wlen
      · simpa using inv.hist
      · show s.dequeued.Perm
          (outputPayloads s ++ (s.workers.set i WStatus.terminated).filterMap taskOf)
        have base := inv.flight
        rw [runningPayloads, hfm] at base
        rw [hfm']
        exact base
      · simpa using inv.chars
      · simpa using inv.wid_lt
      · intro w _ _
        exact hstop
      · intro _ _
        simpa using ht
  | print i t hw =>
      have hfm := filterMap_split taskOf hw
      have hfm' := filterMap_set taskOf hw WStatus.waiting
      simp only [taskOf, Option.toList_none, Option.toList_some,
        List.append_nil, List.nil_append] at hfm hfm'
      refine ⟨?_, ?_, ?_, ?_, ?_, ?_, ?_⟩
      · simpa using inv.wlen
      · simpa using inv.hist
      · show s.dequeued.Perm
          (outputPayloads { s with
              workers := s.workers.set i WStatus.waiting,
              output := s.output ++ [⟨i, t⟩],
              outChars := s.outChars ++ (renderLine ⟨i, t⟩).data ++ ['\n'] } ++
            (s.workers.set i WStatus.waiting).filterMap taskOf)
        have base := inv.flight
        rw [runningPayloads, hfm] at base
        have hout : outputPayloads { s with
              workers := s.workers.set i WStatus.waiting,
              output := s.output ++ [⟨i, t⟩],
              outChars := s.outChars ++ (renderLine ⟨i, t⟩).data ++ ['\n'] }
            = outputPayloads s ++ [t] := by
          simp [outputPayloads]
        rw [hout, hfm']
        rw [List.perm_iff_count] at base ⊢
        intro a
        have hb := base a
        simp [List.count_append, List.count_cons] at hb ⊢
        omega
      · show s.outChars ++ (renderLine ⟨i, t⟩).data ++ ['\n']
          = flatRender (s.output ++ [⟨i, t⟩])
        rw [inv.chars]
        simp [flatRender, List.append_assoc]
      · intro l hmem
        simp only [List.mem_append, List.mem_singleton] at hmem
        rcases hmem with hmem' | heq
        · exact inv.wid_lt l hmem'
        · rw [heq]
          have : i < s.workers.length := lt_length_of_getElem? hw
          rw [inv.wlen] at this
          exact this
      · intro w hmem hterm
        show s.stop = true
        rcases List.mem_or_eq_of_mem_set hmem with hmem' | heq
        · exact inv.term_stop w hmem' hterm
        · rw [heq] at hterm
          exact WStatus.noConfusion hterm
      · intro _ hterm
        exfalso
        have hmemw : WStatus.waiting ∈ s.workers.set i WStatus.waiting :=
          mem_set_self hw _
        have := hterm _ hmemw
        exact WStatus.noConfusion this

theorem Inv.steps {n : Nat} {s s' : PoolState} {tr : List Label}
    (h : Steps s tr s') (inv : Inv n s) : Inv n s' := by
  induction h with
  | refl _ => exact inv
  | head hstep _ ih => exact ih (Inv.step hstep inv)

theorem Inv.reachable {n : Nat} {s : PoolState} (h : Reachable n s) :
    Inv n s := by
  obtain ⟨tr, hsteps⟩ := h
  exact Inv.steps hsteps (Inv.init n)

theorem runningPayloads_eq_nil {s : PoolState} (h : allTerminated s) :
    runningPayloads s = [] := by
  rw [runningPayloads, List.filterMap_eq_nil_iff]
  intro w hw
  rw [h w hw]
  rfl

theorem allTerminated_tasks_eq_nil {n : Nat} {s : PoolState} (hn : 0 < n)
    (inv : Inv n s) (hterm : allTerminated s) : s.tasks = [] := by
  apply inv.drained ?_ hterm
  intro hnil
  have hlen := inv.wlen
  rw [hnil] at hlen
  simp at hlen
  omega

theorem allTerminated_output_perm {n : Nat} {s : PoolState} (hn : 0 < n)
    (inv : Inv n s) (hterm : allTerminated s) :
    (outputPayloads s).Perm s.enqueued := by
  have htasks := allTerminated_tasks_eq_nil hn inv hterm
  have hhist := inv.hist
  rw [htasks, List.append_nil] at hhist
  have hfl := inv.flight
  rw [runningPayloads_eq_nil hterm, List.append_nil] at hfl
  rw [hhist]
  exact hfl.symm

/-! ### The single-worker invariant -/

theorem swInv_init (n : Nat) : swInv (initState n) := by
  intro _
  simp [initState, outputPayloads, runningPayloads, List.filterMap_replicate,
    taskOf]

theorem swInv_step {s s' : PoolState} {l : Label} (h : Step s l s')
    (hsw : swInv s) : swInv s' := by
  cases h with
  | enq msg hstop =>
      intro hlen
      simp only [Enqueue] at hlen ⊢
      simpa [outputPayloads, runningPayloads] using hsw hlen
  | halt =>
      intro hlen
      simpa [outputPayloads, runningPayloads] using hsw hlen
  | deq i t rest hw ht =>
      intro hlen
      simp only [List.length_set] at hlen
      have hi : i = 0 := by
        have := lt_length_of_getElem? hw
        omega
      subst hi
      have hbase := hsw hlen
      obtain ⟨w0, hw0⟩ := List.length_eq_one.mp hlen
      rw [hw0] at hw
      simp at hw
      subst hw
      simp [runningPayloads, hw0, taskOf] at hbase
      show s.dequeued ++ [t]
        = outputPayloads s ++ (s.workers.set 0 (WStatus.running t)).filterMap taskOf
      rw [hw0]
      simp [taskOf, hbase]
  | term i hw hstop ht =>
      intro hlen
      simp only [List.length_set] at hlen
      have hi : i = 0 := by
        have := lt_length_of_getElem? hw
        omega
      subst hi
      have hbase := hsw hlen
      obtain ⟨w0, hw0⟩ := List.length_eq_one.mp hlen
      rw [hw0] at hw
      simp at hw
      subst hw
      simp [runningPayloads, hw0, taskOf] at hbase
      show s.dequeued
        = outputPayloads s ++ (s.workers.set 0 WStatus.terminated).filterMap taskOf
      rw [hw0]
      simp [taskOf, hbase]
  | print i t hw =>
      intro hlen
      simp only [List.length_set] at hlen
      have hi : i = 0 := by
        have := lt_length_of_getElem? hw
        omega
      subst hi
      have hbase := hsw hlen
      obtain ⟨w0, hw0⟩ := List.length_eq_one.mp hlen
      rw [hw0] at hw
      simp at hw
      subst hw
      simp [runningPayloads, hw0, taskOf] at hbase
      show s.dequeued
        = outputPayloads { s with
            workers := s.workers.set 0 WStatus.waiting,
            output := s.output ++ [⟨0, t⟩],
            outChars := s.outChars ++ (renderLine ⟨0, t⟩).data ++ ['\n'] } ++
          (s.workers.set 0 WStatus.waiting).filterMap taskOf
      rw [hw0]
      simp [outputPayloads, taskOf] at hbase ⊢
      simp [hbase]

theorem swInv_steps {s s' : PoolState} {tr : List Label}
    (h : Steps s tr s') (hsw : swInv s) : swInv s' := by
  induction h with
  | refl _ => exact hsw
  | head hstep _ ih => exact ih (swInv_step hstep hsw)

/-! ### Liveness: once `stop_` is set, a draining schedule terminates -/

theorem not_allTerminated_exists {s : PoolState} (h : ¬ allTerminated s) :
    ∃ (i : Nat) (w : WStatus),
      s.workers[i]? = some w ∧ w ≠ WStatus.terminated := by
  unfold allTerminated at h
  push_neg at h
  obtain ⟨w, hmem, hne⟩ := h
  obtain ⟨i, hlt, hget⟩ := List.mem_iff_getElem.mp hmem
  refine ⟨i, w, ?_, hne⟩
  rw [List.getElem?_eq_getElem hlt]
  exact congrArg some hget

theorem terminates_of_stop_aux :
    ∀ (e : Nat) (s : PoolState), energy s = e → s.stop = true →
      ∃ tr s', Steps s tr s' ∧ allTerminated s' := by
  intro e
  induction e using Nat.strong_induction_on with
  | _ e ih =>
    intro s he hstop
    by_cases hterm : allTerminated s
    · exact ⟨[], s, Steps.refl s, hterm⟩
    · obtain ⟨i, w, hw, hne⟩ := not_allTerminated_exists hterm
      cases w with
      | terminated => exact absurd rfl hne
      | waiting =>
          cases htasks : s.tasks with
          | nil =>
              have hstep := Step.term s i hw hstop htasks
              have hsum := sum_map_set wrank hw WStatus.terminated
              simp only [wrank] at hsum
              have hdec : energy { s with
                  workers := s.workers.set i WStatus.terminated } < e := by
                rw [← he]
                unfold energy
                simp only
                omega
              obtain ⟨tr, s', hsteps, hterm'⟩ :=
                ih _ hdec _ rfl (by simpa using hstop)
              exact ⟨Label.term i :: tr, s', Steps.head hstep hsteps, hterm'⟩
          | cons t rest =>
              have hstep := Step.deq s i t rest hw htasks
              have hsum := sum_map_set wrank hw (WStatus.running t)
              simp only [wrank] at hsum
              have hlen : s.tasks.length = rest.length + 1 := by
                rw [htasks]
                simp
              have hdec : energy { s with
                  tasks := rest,
                  workers := s.workers.set i (WStatus.running t),
                  dequeued := s.dequeued ++ [t] } < e := by
                rw [← he]
                unfold energy
                simp only
                omega
              obtain ⟨tr, s', hsteps, hterm'⟩ :=
                ih _ hdec _ rfl (by simpa using hstop)
              exact ⟨Label.deq i t :: tr, s', Steps.head hstep hsteps, hterm'⟩
      | running t =>
          have hstep := Step.print s i t hw
          have hsum := sum_map_set wrank hw WStatus.waiting
          simp only [wrank] at hsum
          have hdec : energy { s with
              workers := s.workers.set i WStatus.waiting,
              output := s.output ++ [⟨i, t⟩],
              outChars := s.outChars ++ (renderLine ⟨i, t⟩).data ++ ['\n'] } < e := by
            rw [← he]
            unfold energy
            simp only
            omega
          obtain ⟨tr, s', hsteps, hterm'⟩ :=
            ih _ hdec _ rfl (by simpa using hstop)
          exact ⟨Label.print i t :: tr, s', Steps.head hstep hsteps, hterm'⟩

/-- From any state in which the destructor has already stored
`stop_ = true` there is a finite schedule after which every worker has
exited: the destructor's joins can all return. -/
theorem terminates_of_stop (s : PoolState) (hstop : s.stop = true) :
    ∃ tr s', Steps s tr s' ∧ allTerminated s' :=
  terminates_of_stop_aux (energy s) s rfl hstop

theorem enqLabels_eq_nil {tr : List Label} (h : ∀ m, Label.enq m ∉ tr) :
    enqLabels tr = [] := by
  rw [enqLabels, List.filterMap_eq_nil_iff]
  intro l hl
  cases l with
  | enq m => exact absurd hl (h m)
  | halt => rfl
  | deq i t => rfl
  | term i => rfl
  | print i t => rfl

/-- In every submission-free run the pool prints nothing. -/
theorem output_nil_of_no_enq {n : Nat} {tr : List Label} {s : PoolState}
    (hrun : Steps (initState n) tr s) (hne : ∀ m, Label.enq m ∉ tr) :
    s.output = [] := by
  have inv : Inv n s := Inv.steps hrun (Inv.init n)
  have henq : s.enqueued = [] := by
    have := hrun.enqueued_eq
    rw [enqLabels_eq_nil hne] at this
    simpa [initState] using this
  have hdeq : s.dequeued = [] := by
    have := inv.hist
    rw [henq] at this
    exact (List.append_eq_nil.mp this.symm).1
  have hlen := inv.flight.length_eq
  rw [hdeq] at hlen
  simp at hlen
  have : outputPayloads s = [] := List.length_eq_zero.mp (by omega)
  exact List.map_eq_nil_iff.mp this

/-! ### The concrete single-worker run -/

theorem rA_steps2 : Steps rA0 [Label.enq msg1, Label.halt] rA2 :=
  Steps.head (Step.enq rA0 msg1 rfl)
    (Steps.head (Step.halt rA1) (Steps.refl rA2))

theorem rA_steps : Steps rA0 trA rA5 :=
  Steps.head (Step.enq rA0 msg1 rfl)
    (Steps.head (Step.halt rA1)
      (Steps.head (Step.deq rA2 0 msg1 [] rfl rfl)
        (Steps.head (Step.print rA3 0 msg1 rfl)
          (Steps.head (Step.term rA4 0 rfl rfl rfl) (Steps.refl rA5)))))

/-! ### The specification claims -/

/-- C1: Exactly-once execution.  In every run of a pool with a positive
number of workers in which tasks are submitted via `Enqueue` and teardown
completes (every worker has exited, so the destructor's joins return), the
multiset of printed payloads is exactly the multiset of submitted payloads
— no task is lost and none is executed twice — and every execution is
performed by exactly one worker of the pool. -/
theorem exactly_once (n : Nat) (tr : List Label) (s : PoolState)
    (hn : 0 < n) (hrun : Steps (initState n) tr s)
    (hterm : allTerminated s) :
    (outputPayloads s).Perm (enqLabels tr) ∧ ∀ l ∈ s.output, l.wid < n := by
  have inv : Inv n s := Inv.steps hrun (Inv.init n)
  have henq : s.enqueued = enqLabels tr := by
    have := hrun.enqueued_eq
    simpa [initState] using this
  have hperm := allTerminated_output_perm hn inv hterm
  rw [henq] at hperm
  exact ⟨hperm, inv.wid_lt⟩

theorem exactly_once_witness :
    0 < 1 ∧ allTerminated rA5 ∧
      ((outputPayloads rA5).Perm (enqLabels trA) ∧
        ∀ l ∈ rA5.output, l.wid < 1) :=
  ⟨by decide, by decide, exactly_once 1 trA rA5 (by decide) rA_steps (by decide)⟩

/-- C2: Drain and clean termination.  From any reachable state of a pool
with a positive number of workers in which the destructor has stored
`stop_ = true`: (a) a finite schedule exists after which every worker has
exited, so the destructor's join loop can return; and (b) whenever the
join loop does return (every worker has exited, and none remains alive),
the queue has been fully drained and every task that was in the queue at
the moment the flag was set has been printed. -/
theorem teardown_drain (n : Nat) (s0 : PoolState) (hn : 0 < n)
    (hreach : Reachable n s0) (hstop : s0.stop = true) :
    (∃ tr s1, Steps s0 tr s1 ∧ allTerminated s1) ∧
    (∀ tr s1, Steps s0 tr s1 → allTerminated s1 →
      s1.tasks = [] ∧ ∀ t ∈ s0.tasks, t ∈ outputPayloads s1) := by
  constructor
  · exact terminates_of_stop s0 hstop
  · intro tr s1 hsteps hterm1
    have inv0 : Inv n s0 := Inv.reachable hreach
    have inv1 : Inv n s1 := Inv.steps hsteps inv0
    refine ⟨allTerminated_tasks_eq_nil hn inv1 hterm1, ?_⟩
    intro t ht
    have htenq : t ∈ s0.enqueued := by
      rw [inv0.hist]
      exact List.mem_append_right _ ht
    have henq1 : s1.enqueued = s0.enqueued := by
      have hnoenq := hsteps.no_enq_of_stop hstop
      rw [hsteps.enqueued_eq, enqLabels_eq_nil hnoenq, List.append_nil]
    have hperm := allTerminated_output_perm hn inv1 hterm1
    rw [henq1] at hperm
    exact hperm.mem_iff.mpr htenq

theorem teardown_drain_witness :
    0 < 1 ∧ Reachable 1 rA2 ∧ rA2.stop = true ∧
      ((∃ tr s1, Steps rA2 tr s1 ∧ allTerminated s1) ∧
        (∀ tr s1, Steps rA2 tr s1 → allTerminated s1 →
          s1.tasks = [] ∧ ∀ t ∈ rA2.tasks, t ∈ outputPayloads s1)) :=
  ⟨by decide, ⟨[Label.enq msg1, Label.halt], rA_steps2⟩, rfl,
    teardown_drain 1 rA2 (by decide)
      ⟨[Label.enq msg1, Label.halt], rA_steps2⟩ rfl⟩

/-- C3: take_or_wait contract.  For a worker `i` blocked in the wait block
(lines 52-59) of a pool state: while the queue is empty and `stop_` is
false no wait event of worker `i` can fire (the worker blocks); a dequeue
event removes and returns exactly the front element of the queue; and a
termination event is possible if and only if `stop_` is true and the queue
is empty.  The transition relation admits no other outcome of the wait. -/
theorem take_or_wait_spec (s : PoolState) (i : Nat)
    (hw : s.workers[i]? = some WStatus.waiting) :
    (s.tasks = [] → s.stop = false →
      ∀ lbl s', WaitEvent i lbl → ¬ Step s lbl s') ∧
    (∀ t s', Step s (Label.deq i t) s' →
      s.tasks = t :: s'.tasks ∧ s'.dequeued = s.dequeued ++ [t] ∧
        s'.workers = s.workers.set i (WStatus.running t) ∧
        s'.stop = s.stop) ∧
    ((∃ s', Step s (Label.term i) s') ↔ s.stop = true ∧ s.tasks = []) := by
  refine ⟨?_, ?_, ?_⟩
  · intro hempty hnostop lbl s' hev hstep
    rcases hev with ⟨t, rfl⟩ | rfl
    · cases hstep with
      | deq _ _ rest _ ht =>
          rw [hempty] at ht
          exact List.noConfusion ht
    · cases hstep with
      | term _ _ hstop _ =>
          rw [hnostop] at hstop
          exact Bool.noConfusion hstop
  · intro t s' hstep
    cases hstep with
    | deq _ _ rest hw' ht => exact ⟨ht, rfl, rfl, rfl⟩
  · constructor
    · intro ⟨s', hstep⟩
      cases hstep with
      | term _ _ hstop ht => exact ⟨hstop, ht⟩
    · intro ⟨hstop, ht⟩
      exact ⟨_, Step.term s i hw hstop ht⟩

theorem take_or_wait_spec_witness :
    rA0.workers[0]? = some WStatus.waiting ∧
      ((rA0.tasks = [] → rA0.stop = false →
        ∀ lbl s', WaitEvent 0 lbl → ¬ Step rA0 lbl s') ∧
      (∀ t s', Step rA0 (Label.deq 0 t) s' →
        rA0.tasks = t :: s'.tasks ∧ s'.dequeued = rA0.dequeued ++ [t] ∧
          s'.workers = rA0.workers.set 0 (WStatus.running t) ∧
          s'.stop = rA0.stop) ∧
      ((∃ s', Step rA0 (Label.term 0) s') ↔
        rA0.stop = true ∧ rA0.tasks = [])) :=
  ⟨rfl, take_or_wait_spec rA0 0 rfl⟩

/-- C4: FIFO dequeue order.  In every reachable state the dequeue history
is a prefix of the submission history (tasks leave the shared queue in
exactly submission order); with exactly one worker the print history is a
prefix of the submission history at all times, and once the single worker
has exited it equals the submission history exactly. -/
theorem fifo_order (n : Nat) (s : PoolState) (hreach : Reachable n s) :
    (∃ rest, s.enqueued = s.dequeued ++ rest) ∧
    (s.workers.length = 1 →
      ∃ rest, s.enqueued = outputPayloads s ++ rest) ∧
    (s.workers.length = 1 → allTerminated s →
      outputPayloads s = s.enqueued) := by
  have inv : Inv n s := Inv.reachable hreach
  obtain ⟨tr, hsteps⟩ := hreach
  have hsw : swInv s := swInv_steps hsteps (swInv_init n)
  refine ⟨⟨s.tasks, inv.hist⟩, ?_, ?_⟩
  · intro hlen
    refine ⟨runningPayloads s ++ s.tasks, ?_⟩
    rw [inv.hist, hsw hlen, List.append_assoc]
  · intro hlen hterm
    have hn : 0 < n := by
      have := inv.wlen
      omega
    have htasks := allTerminated_tasks_eq_nil hn inv hterm
    have hrp := runningPayloads_eq_nil hterm
    have hbase := hsw hlen
    rw [hrp, List.append_nil] at hbase
    rw [inv.hist, htasks, List.append_nil, hbase]

theorem fifo_order_witness :
    Reachable 1 rA5 ∧
      ((∃ rest, rA5.enqueued = rA5.dequeued ++ rest) ∧
      (rA5.workers.length = 1 →
        ∃ rest, rA5.enqueued = outputPayloads rA5 ++ rest) ∧
      (rA5.workers.length = 1 → allTerminated rA5 →
        outputPayloads rA5 = rA5.enqueued)) :=
  ⟨⟨trA, rA_steps⟩, fifo_order 1 rA5 ⟨trA, rA_steps⟩⟩

/-- C5: Submit contract.  `Enqueue` appends the task to the back of the
queue and touches nothing else a caller can observe; it is a total
function of the pool state — no path in its body waits on `cv_` — and (in
any state where teardown has not begun) it is an always-enabled transition
of the pool.  The C++ member returns `void`: the embedding returns only
the updated state. -/
theorem enqueue_non_blocking (s : PoolState) (msg : String) :
    (Enqueue s msg).tasks = s.tasks ++ [msg] ∧
    (Enqueue s msg).stop = s.stop ∧
    (Enqueue s msg).workers = s.workers ∧
    (Enqueue s msg).output = s.output ∧
    (Enqueue s msg).outChars = s.outChars ∧
    (s.stop = false → Step s (Label.enq msg) (Enqueue s msg)) :=
  ⟨rfl, rfl, rfl, rfl, rfl, fun h => Step.enq s msg h⟩

theorem enqueue_non_blocking_witness :
    (Enqueue rA0 msg1).tasks = rA0.tasks ++ [msg1] ∧
    (Enqueue rA0 msg1).stop = rA0.stop ∧
    (Enqueue rA0 msg1).workers = rA0.workers ∧
    (Enqueue rA0 msg1).output = rA0.output ∧
    (Enqueue rA0 msg1).outChars = rA0.outChars ∧
    (rA0.stop = false → Step rA0 (Label.enq msg1) (Enqueue rA0 msg1)) :=
  enqueue_non_blocking rA0 msg1

/-- C6: Output non-interleaving.  In every reachable state the raw
character stream of `std::cout` is exactly the concatenation of whole
rendered lines, one per executed task — because the worker writes its
entire line while holding `cout_mutex` (a mutual-exclusion domain separate
from `queue_mutex_`), no two concurrently printed lines ever interleave
character-wise — and each line carries the identifier of the single worker
of the pool that printed it. -/
theorem output_non_interleaving (n : Nat) (s : PoolState)
    (hreach : Reachable n s) :
    s.outChars = flatRender s.output ∧ ∀ l ∈ s.output, l.wid < n := by
  have inv : Inv n s := Inv.reachable hreach
  exact ⟨inv.chars, inv.wid_lt⟩

theorem output_non_interleaving_witness :
    Reachable 1 rA5 ∧
      (rA5.outChars = flatRender rA5.output ∧
        ∀ l ∈ rA5.output, l.wid < 1) :=
  ⟨⟨trA, rA_steps⟩, output_non_interleaving 1 rA5 ⟨trA, rA_steps⟩⟩

/-- C7: Output format.  In every run each executed task produces exactly
one output line (the lines are, in order, exactly the print events of the
run), and every line reads `<worker-identifier>: <task-payload>`, where
the worker identifier is `Thread ` followed by the printing worker's id. -/
theorem output_format (n : Nat) (tr : List Label) (s : PoolState)
    (hrun : Steps (initState n) tr s) :
    s.output = printEvents tr ∧
    ∀ l ∈ s.output,
      renderLine l = workerIdent l.wid ++ ": " ++ l.payload := by
  constructor
  · have := hrun.output_eq
    simpa [initState] using this
  · intro l _
    rfl

theorem output_format_witness :
    (rA5.output = printEvents trA ∧
      ∀ l ∈ rA5.output,
        renderLine l = workerIdent l.wid ++ ": " ++ l.payload) :=
  output_format 1 trA rA5 rA_steps

/-- C8: Zero-task scenario.  For every worker count, if the pool is torn
down right after construction: the shutdown broadcast releases every
worker's wait and a finite schedule exists in which all workers exit (the
destructor returns, no deadlock) with nothing printed; moreover any run
without submissions prints nothing at all. -/
theorem zero_task_teardown (n : Nat) :
    (∃ tr s', Steps (initState n) (Label.halt :: tr) s' ∧
      allTerminated s' ∧ s'.output = []) ∧
    (∀ tr s', Steps (initState n) tr s' → (∀ m, Label.enq m ∉ tr) →
      s'.output = []) := by
  constructor
  · have hstep : Step (initState n) Label.halt
        { initState n with stop := true } :=
      Step.halt (initState n)
    obtain ⟨tr, s', hsteps, hterm⟩ :=
      terminates_of_stop { initState n with stop := true } rfl
    refine ⟨tr, s', Steps.head hstep hsteps, hterm, ?_⟩
    apply output_nil_of_no_enq (Steps.head hstep hsteps)
    intro m hmem
    rcases List.mem_cons.mp hmem with h1 | h2
    · exact Label.noConfusion h1
    · exact hsteps.no_enq_of_stop rfl m h2
  · intro tr s' hrun hne
    exact output_nil_of_no_enq hrun hne

theorem zero_task_teardown_witness :
    (∃ tr s', Steps (initState 2) (Label.halt :: tr) s' ∧
      allTerminated s' ∧ s'.output = []) ∧
    (∀ tr s', Steps (initState 2) tr s' → (∀ m, Label.enq m ∉ tr) →
      s'.output = []) :=
  zero_task_teardown 2

/-- C9: Zero-worker edge case.  The constructor accepts a worker count of
zero (the source never validates `num_workers`): the pool is built with an
empty worker vector, so in every one of its runs the destructor's join
loop has nothing to wait for (teardown returns immediately) and nothing is
ever printed, while `Enqueue` still accepts any submitted task into the
queue — the task is simply never executed. -/
theorem zero_worker_pool :
    (initState 0).workers = [] ∧
    (∀ tr s', Steps (initState 0) tr s' →
      allTerminated s' ∧ s'.output = [] ∧ s'.workers = []) ∧
    (∀ msg, (Enqueue (initState 0) msg).tasks = [msg]) := by
  refine ⟨rfl, ?_, ?_⟩
  · intro tr s' hsteps
    have inv : Inv 0 s' := Inv.steps hsteps (Inv.init 0)
    have hwnil : s'.workers = [] := List.length_eq_zero.mp inv.wlen
    refine ⟨?_, ?_, hwnil⟩
    · intro w hw
      rw [hwnil] at hw
      exact absurd hw (List.not_mem_nil w)
    · apply List.eq_nil_iff_forall_not_mem.mpr
      intro l hl
      exact absurd (inv.wid_lt l hl) (Nat.not_lt_zero _)
  · intro msg
    rfl

/-- C10: Enqueue frame property.  `Enqueue` grows the queue by exactly one
element, leaves every element already in the queue at its original
position, and leaves the shutdown flag and the worker set untouched. -/
theorem enqueue_frame (s : PoolState) (msg : String) :
    (Enqueue s msg).tasks.length = s.tasks.length + 1 ∧
    (∀ k, k < s.tasks.length →
      (Enqueue s msg).tasks[k]? = s.tasks[k]?) ∧
    (Enqueue s msg).stop = s.stop ∧
    (Enqueue s msg).workers = s.workers := by
  refine ⟨by simp [Enqueue], ?_, rfl, rfl⟩
  intro k hk
  show (s.tasks ++ [msg])[k]? = s.tasks[k]?
  rw [List.getElem?_append, if_pos hk]

theorem enqueue_frame_witness :
    (Enqueue rA1 "x").tasks.length = rA1.tasks.length + 1 ∧
    (∀ k, k < rA1.tasks.length →
      (Enqueue rA1 "x").tasks[k]? = rA1.tasks[k]?) ∧
    (Enqueue rA1 "x").stop = rA1.stop ∧
    (Enqueue rA1 "x").workers = rA1.workers :=
  enqueue_frame rA1 "x"

end SimplePool
